import Mathlib

/-!
Verification of the Scrabbler word-search core (`js/dictionary.js`,
`js/utils.js`, `js/letterRack.js`).

Shallow embedding conventions:
* JS strings are modelled as `List Char`; JS arrays of single-letter strings
  (the wheel pattern, where `''` marks a free slot) as `List (Option Char)`.
* `Array.prototype.indexOf` followed by `splice(index, 1)` is modelled by
  `removeFirst`, which deletes the first occurrence when present.
* `Array.prototype.sort(cmp)` is required to be stable since ES2019, and a
  stable sort's output is uniquely determined by the comparator and the input
  order; it is modelled by Mathlib's stable `List.insertionSort`.
* `String.prototype.localeCompare` is modelled as code-point lexicographic
  comparison (`lexCmp`), which agrees with `localeCompare` on the uppercase
  A–Z strings the dictionary holds.
* A JS `Set` with insertion-order iteration is modelled as a `List`; where the
  source relies on deduplication this is noted at the definition.
* `console.log` calls are ignored (no observable effect on results), and the
  dictionary object is a record `Dictionary` of its `words` list and `loaded`
  flag; `fetch`-based loading is out of scope.
-/

/-- Model of `indexOf` + `splice(index, 1)`: remove the first occurrence of
`c` from `l`, or report that `c` is absent (`indexOf === -1`). -/
def removeFirst : List Char → Char → Option (List Char)
  | [], _ => none
  | x :: xs, c => if x = c then some xs else (removeFirst xs c).map (fun l => x :: l)

/-- The `LETTER_POINTS` table of `js/utils.js`; absent keys score 0
(`LETTER_POINTS[letter] || 0`). -/
def LETTER_POINTS (c : Char) : Nat :=
  if c = 'A' then 1 else if c = 'B' then 3 else if c = 'C' then 3
  else if c = 'D' then 2 else if c = 'E' then 1 else if c = 'F' then 4
  else if c = 'G' then 2 else if c = 'H' then 4 else if c = 'I' then 1
  else if c = 'J' then 8 else if c = 'K' then 5 else if c = 'L' then 1
  else if c = 'M' then 3 else if c = 'N' then 1 else if c = 'O' then 1
  else if c = 'P' then 3 else if c = 'Q' then 10 else if c = 'R' then 1
  else if c = 'S' then 1 else if c = 'T' then 1 else if c = 'U' then 1
  else if c = 'V' then 4 else if c = 'W' then 4 else if c = 'X' then 8
  else if c = 'Y' then 4 else if c = 'Z' then 10 else 0

/-- `calculateWordPoints` of `js/utils.js`: uppercase the word and sum the
letter values. -/
def calculateWordPoints (word : List Char) : Nat :=
  (word.map Char.toUpper).foldl (fun sum letter => sum + LETTER_POINTS letter) 0

/-- Loop of `Dictionary.canFormWord`, carrying the `wildcardsNeeded`
counter. -/
def canFormWordAux : List Char → List Char → Nat → Nat → Bool
  | [], _, _, _ => true
  | c :: rest, available, wildcards, wildcardsNeeded =>
    match removeFirst available c with
    | some available2 => canFormWordAux rest available2 wildcards wildcardsNeeded
    | none =>
      if wildcards < wildcardsNeeded + 1 then false
      else canFormWordAux rest available wildcards (wildcardsNeeded + 1)

/-- `Dictionary.canFormWord(word, letters, wildcards)` from
`js/dictionary.js`. -/
def canFormWord (word letters : List Char) (wildcards : Nat) : Bool :=
  canFormWordAux word letters wildcards 0

/-- Loop of `Dictionary.canFormWordWithBoard`, carrying both pools and the
`wildcardsNeeded` counter. -/
def canFormWordWithBoardAux : List Char → List Char → List Char → Nat → Nat → Bool
  | [], _, _, _, _ => true
  | c :: rest, availableRack, availableBoard, wildcards, wildcardsNeeded =>
    match removeFirst availableBoard c with
    | some board2 => canFormWordWithBoardAux rest availableRack board2 wildcards wildcardsNeeded
    | none =>
      match removeFirst availableRack c with
      | some rack2 => canFormWordWithBoardAux rest rack2 availableBoard wildcards wildcardsNeeded
      | none =>
        if wildcards < wildcardsNeeded + 1 then false
        else canFormWordWithBoardAux rest availableRack availableBoard wildcards (wildcardsNeeded + 1)

/-- `Dictionary.canFormWordWithBoard(word, rackLetters, wildcards,
boardLetters)` from `js/dictionary.js`. -/
def canFormWordWithBoard (word rackLetters : List Char) (wildcards : Nat)
    (boardLetters : List Char) : Bool :=
  canFormWordWithBoardAux word rackLetters boardLetters wildcards 0

/-- Loop of `Dictionary.canFormFromRack`, carrying the `wildcardsUsed`
counter. -/
def canFormFromRackAux : List Char → List Char → Nat → Nat → Bool
  | [], _, _, _ => true
  | letter :: rest, availableArr, wildcards, wildcardsUsed =>
    match removeFirst availableArr letter with
    | some avail2 => canFormFromRackAux rest avail2 wildcards wildcardsUsed
    | none =>
      if wildcards < wildcardsUsed + 1 then false
      else canFormFromRackAux rest availableArr wildcards (wildcardsUsed + 1)

/-- `Dictionary.canFormFromRack(needed, available, wildcards)` from
`js/dictionary.js`. -/
def canFormFromRack (needed available : List Char) (wildcards : Nat) : Bool :=
  canFormFromRackAux needed available wildcards 0

/-- Modelled from the spec (§4.2 MultisetMatcher): consume each character of
the target from the free pool first, then from the rack, else spend one unit
of the remaining wildcard budget, failing as soon as the budget runs out.
This is the spec-side reference algorithm against which the implementation
is compared. -/
def specCanForm : List Char → List Char → List Char → Nat → Bool
  | [], _, _, _ => true
  | c :: rest, free, rack, budget =>
    match removeFirst free c with
    | some free2 => specCanForm rest free2 rack budget
    | none =>
      match removeFirst rack c with
      | some rack2 => specCanForm rest free rack2 budget
      | none =>
        match budget with
        | 0 => false
        | b + 1 => specCanForm rest free rack b

theorem canFormWordWithBoardAux_eq_spec (word : List Char) :
    ∀ rack board wildcards used, used ≤ wildcards →
      canFormWordWithBoardAux word rack board wildcards used =
        specCanForm word board rack (wildcards - used) := by
  induction word with
  | nil => intro rack board wildcards used _; rfl
  | cons c rest ih =>
    intro rack board wildcards used hle
    simp only [canFormWordWithBoardAux, specCanForm]
    cases removeFirst board c with
    | some board2 => exact ih rack board2 wildcards used hle
    | none =>
      cases removeFirst rack c with
      | some rack2 => exact ih rack2 board wildcards used hle
      | none =>
        by_cases h : wildcards < used + 1
        · have : wildcards - used = 0 := by omega
          simp [h, this]
        · have hst : wildcards - used = (wildcards - (used + 1)) + 1 := by omega
          simp only [if_neg h, hst]
          exact ih rack board wildcards (used + 1) (by omega)

theorem canFormWordAux_eq_fromRackAux (word : List Char) :
    ∀ available wildcards counter,
      canFormWordAux word available wildcards counter =
        canFormFromRackAux word available wildcards counter := by
  induction word with
  | nil => intro available wildcards counter; rfl
  | cons c rest ih =>
    intro available wildcards counter
    simp only [canFormWordAux, canFormFromRackAux]
    cases removeFirst available c with
    | some avail2 => exact ih avail2 wildcards counter
    | none =>
      by_cases h : wildcards < counter + 1
      · simp [h]
      · simp only [if_neg h]
        exact ih available wildcards (counter + 1)

theorem canFormWordAux_eq_boardAux_nil (word : List Char) :
    ∀ available wildcards counter,
      canFormWordAux word available wildcards counter =
        canFormWordWithBoardAux word available [] wildcards counter := by
  induction word with
  | nil => intro available wildcards counter; rfl
  | cons c rest ih =>
    intro available wildcards counter
    simp only [canFormWordAux, canFormWordWithBoardAux]
    have hb : removeFirst [] c = none := rfl
    rw [hb]
    cases removeFirst available c with
    | some avail2 => exact ih avail2 wildcards counter
    | none =>
      by_cases h : wildcards < counter + 1
      · simp [h]
      · simp only [if_neg h]
        exact ih available wildcards (counter + 1)

/-- Greedy wildcard demand of a target against an available pool: the number
of characters the greedy left-to-right scan fails to take from the pool. -/
def needWild : List Char → List Char → Nat
  | [], _ => 0
  | c :: rest, available =>
    match removeFirst available c with
    | some avail2 => needWild rest avail2
    | none => needWild rest available + 1

theorem removeFirst_eq_none (c : Char) :
    ∀ l : List Char, removeFirst l c = none ↔ c ∉ l := by
  intro l
  induction l with
  | nil => simp [removeFirst]
  | cons x xs ih =>
    simp only [removeFirst]
    by_cases h : x = c
    · simp [h]
    · have hcx : ¬ c = x := fun hh => h hh.symm
      simp [if_neg h, Option.map_eq_none', ih, hcx]

theorem removeFirst_eq_some (c : Char) :
    ∀ l : List Char, c ∈ l → removeFirst l c = some (l.erase c) := by
  intro l
  induction l with
  | nil => intro h; cases h
  | cons x xs ih =>
    intro hmem
    simp only [removeFirst, List.erase_cons]
    by_cases h : x = c
    · subst h; simp
    · have hxc : (x == c) = false := by simp [h]
      rw [if_neg h, hxc]
      have : c ∈ xs := by
        rcases List.mem_cons.mp hmem with h1 | h1
        · exact absurd h1.symm h
        · exact h1
      rw [ih this]
      rfl

theorem removeFirst_length {c : Char} :
    ∀ {l l2 : List Char}, removeFirst l c = some l2 → l2.length + 1 = l.length := by
  intro l
  induction l with
  | nil => intro l2 h; cases h
  | cons x xs ih =>
    intro l2 h
    simp only [removeFirst] at h
    by_cases hxc : x = c
    · rw [if_pos hxc] at h
      cases h
      rfl
    · rw [if_neg hxc] at h
      cases hreq : removeFirst xs c with
      | none => rw [hreq] at h; cases h
      | some l3 =>
        rw [hreq] at h
        cases h
        simp only [List.length_cons]
        rw [← ih hreq]

theorem canFormWordAux_eq_needWild (word : List Char) :
    ∀ available wildcards counter, counter ≤ wildcards →
      canFormWordAux word available wildcards counter =
        decide (needWild word available + counter ≤ wildcards) := by
  induction word with
  | nil =>
    intro available wildcards counter h
    simp [canFormWordAux, needWild, h]
  | cons c rest ih =>
    intro available wildcards counter hcw
    simp only [canFormWordAux, needWild]
    by_cases hmem : c ∈ available
    · simp only [removeFirst_eq_some c available hmem]
      exact ih _ wildcards counter hcw
    · simp only [(removeFirst_eq_none c available).mpr hmem]
      by_cases h : wildcards < counter + 1
      · have hx : ¬ (needWild rest available + 1 + counter ≤ wildcards) := by omega
        simp [h, hx]
      · simp only [if_neg h]
        rw [ih available wildcards (counter + 1) (by omega)]
        have hiff : (needWild rest available + (counter + 1) ≤ wildcards) ↔
            (needWild rest available + 1 + counter ≤ wildcards) := by omega
        simp [hiff]

theorem canFormWord_eq_needWild (word available : List Char) (wildcards : Nat) :
    canFormWord word available wildcards = decide (needWild word available ≤ wildcards) := by
  rw [canFormWord, canFormWordAux_eq_needWild word available wildcards 0 (Nat.zero_le _)]
  simp

theorem canFormFromRack_eq_needWild (needed available : List Char) (wildcards : Nat) :
    canFormFromRack needed available wildcards =
      decide (needWild needed available ≤ wildcards) := by
  rw [canFormFromRack, ← canFormWordAux_eq_fromRackAux,
    canFormWordAux_eq_needWild needed available wildcards 0 (Nat.zero_le _)]
  simp

theorem canFormWordWithBoardAux_length (word : List Char) :
    ∀ rack board wildcards used, used ≤ wildcards →
      canFormWordWithBoardAux word rack board wildcards used = true →
      word.length ≤ rack.length + board.length + (wildcards - used) := by
  induction word with
  | nil => intro rack board wildcards used _ _; simp
  | cons c rest ih =>
    intro rack board wildcards used hle h
    simp only [canFormWordWithBoardAux] at h
    cases hb : removeFirst board c with
    | some board2 =>
      rw [hb] at h
      have hlen := removeFirst_length hb
      have := ih rack board2 wildcards used hle h
      simp only [List.length_cons]
      omega
    | none =>
      rw [hb] at h
      cases hr : removeFirst rack c with
      | some rack2 =>
        rw [hr] at h
        have hlen := removeFirst_length hr
        have := ih rack2 board wildcards used hle h
        simp only [List.length_cons]
        omega
      | none =>
        rw [hr] at h
        by_cases hw : wildcards < used + 1
        · rw [if_pos hw] at h; cases h
        · rw [if_neg hw] at h
          have := ih rack board wildcards (used + 1) (by omega) h
          simp only [List.length_cons]
          omega

/-- C2: `canFormWordWithBoard` consumes each target character from the free
(board) pool first, then the rack, then the wildcard budget, failing exactly
when the budget is exceeded, and an empty target is always formable. The
implementation (counter-based) is proved equal to the spec-side recursion
(budget-based) for all inputs. -/
theorem canFormWordWithBoard_matches_spec (target rack free : List Char) (w : Nat) :
    canFormWordWithBoard target rack w free = specCanForm target free rack w ∧
    canFormWordWithBoard [] rack w free = true := by
  constructor
  · rw [canFormWordWithBoard,
      canFormWordWithBoardAux_eq_spec target rack free w 0 (Nat.zero_le _)]
    simp
  · rfl

/-- C10: with an empty free pool the three separately implemented
multiset-subtraction routines agree on every input. -/
theorem multisetRoutines_agree (word letters : List Char) (w : Nat) :
    canFormWord word letters w = canFormWordWithBoard word letters w [] ∧
    canFormWord word letters w = canFormFromRack word letters w := by
  constructor
  · exact canFormWordAux_eq_boardAux_nil word letters w 0
  · exact canFormWordAux_eq_fromRackAux word letters w 0

theorem toNat_ofNat_of_valid {n : Nat} (h : n.isValidChar) :
    (Char.ofNat n).toNat = n := by
  rw [Char.ofNat, dif_pos h]
  rfl

/-- JS `toUpperCase` (modelled by `Char.toUpper`) maps a character to the
wildcard marker only if it is the wildcard marker itself. -/
theorem toUpper_eq_qmark_iff (c : Char) : Char.toUpper c = '?' ↔ c = '?' := by
  constructor
  · intro h
    rw [Char.toUpper] at h
    split at h
    · rename_i hcond
      have hv : (c.toNat - 32).isValidChar := Or.inl (by omega)
      have h63 := congrArg Char.toNat h
      rw [toNat_ofNat_of_valid hv] at h63
      have : ('?' : Char).toNat = 63 := rfl
      omega
    · exact h
  · intro h
    subst h
    rfl

/-- Predicate for the characters kept by `replace(/\?/g, '')`. -/
def isNotWildcard (c : Char) : Bool := c != '?'

/-- Predicate for the characters counted by `match(/\?/g)`. -/
def isWildcard (c : Char) : Bool := c == '?'

theorem isNotWildcard_iff (c : Char) : isNotWildcard c = true ↔ ¬ c = '?' := by
  simp [isNotWildcard]

theorem isWildcard_iff (c : Char) : isWildcard c = true ↔ c = '?' := by
  simp [isWildcard]

theorem map_toUpper_filter_qmark (letters : List Char) :
    (letters.filter isNotWildcard).map Char.toUpper =
      (letters.map Char.toUpper).filter isNotWildcard := by
  induction letters with
  | nil => rfl
  | cons c cs ih =>
    simp only [List.map_cons, List.filter_cons]
    by_cases h : c = '?'
    · have h2 : Char.toUpper c = '?' := (toUpper_eq_qmark_iff c).mpr h
      have e1 : isNotWildcard c = false := by simp [isNotWildcard, h]
      have e2 : isNotWildcard (Char.toUpper c) = false := by simp [isNotWildcard, h2]
      rw [e1, e2]
      simpa using ih
    · have h2 : ¬ Char.toUpper c = '?' := fun hh => h ((toUpper_eq_qmark_iff c).mp hh)
      have e1 : isNotWildcard c = true := by simp [isNotWildcard, h]
      have e2 : isNotWildcard (Char.toUpper c) = true := by simp [isNotWildcard, h2]
      rw [e1, e2]
      simp only [if_true, List.map_cons]
      rw [ih]

theorem count_qmark_map_toUpper (letters : List Char) :
    (letters.map Char.toUpper).count '?' = letters.countP isWildcard := by
  induction letters with
  | nil => rfl
  | cons c cs ih =>
    simp only [List.map_cons, List.count_cons, List.countP_cons]
    by_cases h : c = '?'
    · have h2 : Char.toUpper c = '?' := (toUpper_eq_qmark_iff c).mpr h
      have e1 : isWildcard c = true := by simp [isWildcard, h]
      have e2 : (Char.toUpper c == '?') = true := by simp [h2]
      rw [e1, e2, ih]
    · have h2 : ¬ Char.toUpper c = '?' := fun hh => h ((toUpper_eq_qmark_iff c).mp hh)
      have e1 : isWildcard c = false := by simp [isWildcard, h]
      have e2 : (Char.toUpper c == '?') = false := by simp [h2]
      rw [e1, e2, ih]

/-- If every character of `p` is covered by the multiset `L`, then the greedy
scan of `p` against the non-wildcard part of `L` demands at most as many
wildcards as `L` holds. -/
theorem needWild_le_of_counts (p : List Char) :
    ∀ L : List Char, (∀ x : Char, p.count x ≤ L.count x) →
      needWild p (L.filter isNotWildcard) ≤ L.count '?' := by
  induction p with
  | nil => intro L _; simp [needWild]
  | cons c cs ih =>
    intro L h
    have hmemL : c ∈ L := by
      have hc := h c
      have hpos : 0 < (c :: cs).count c := by simp
      exact List.count_pos_iff.mp (by omega)
    simp only [needWild]
    have hcs : ∀ x : Char, cs.count x ≤ (L.erase c).count x := by
      intro x
      have hx := h x
      rw [List.count_erase]
      by_cases hxc : x = c
      · subst hxc
        have hx2 : cs.count x + 1 ≤ L.count x := by
          simpa [List.count_cons] using hx
        simp only [beq_self_eq_true, if_true]
        omega
      · have hbe : (c == x) = false := beq_false_of_ne (fun hh => hxc hh.symm)
        rw [hbe]
        simp only [Bool.false_eq_true, if_false, Nat.sub_zero]
        have hbe2 : (c == x) = false := hbe
        calc cs.count x ≤ (c :: cs).count x := by
              rw [List.count_cons]; omega
          _ ≤ L.count x := hx
    by_cases hc : c = '?'
    · subst hc
      have hq : '?' ∉ L.filter isNotWildcard := by
        intro hmem
        have := List.of_mem_filter hmem
        simp [isNotWildcard] at this
      simp only [(removeFirst_eq_none _ _).mpr hq]
      have hsub := ih (L.erase '?') hcs
      rw [← List.erase_filter] at hsub
      rw [List.erase_of_not_mem hq] at hsub
      have hcount : (L.erase '?').count '?' = L.count '?' - 1 := List.count_erase_self '?' L
      have hpos : 0 < L.count '?' := List.count_pos_iff.mpr hmemL
      omega
    · have hmemR : c ∈ L.filter isNotWildcard := by
        apply List.mem_filter.mpr
        exact ⟨hmemL, by simp [isNotWildcard, hc]⟩
      simp only [removeFirst_eq_some c _ hmemR]
      rw [List.erase_filter]
      have hsub := ih (L.erase c) hcs
      have hcount : (L.erase c).count '?' = L.count '?' :=
        List.count_erase_of_ne (fun hh => hc hh.symm) L
      omega

/-- All ways the `for (let i = 0; i < arr.length; i++)` loop of `permute`
picks one element `arr[i]` together with the remainder
`[...arr.slice(0, i), ...arr.slice(i + 1)]`, in loop order. -/
def picks : List Char → List (Char × List Char)
  | [] => []
  | a :: l => (a, l) :: (picks l).map (fun p => (p.1, a :: p.2))

theorem picks_perm :
    ∀ {l : List Char} {p : Char × List Char}, p ∈ picks l → l.Perm (p.1 :: p.2) := by
  intro l
  induction l with
  | nil => intro p h; cases h
  | cons a l ih =>
    intro p h
    rcases List.mem_cons.mp h with h1 | h1
    · subst h1; rfl
    · rcases List.mem_map.mp h1 with ⟨q, hq, hpq⟩
      subst hpq
      exact ((ih hq).cons a).trans (List.Perm.swap q.1 a q.2)

/-- The recursive body of `getPermutations` in `js/utils.js`, with the
recursion depth made explicit as structural fuel (every call removes one
element, so the depth is the length of the remaining array; the definition
only recurses with fuel equal to that length). The JS `results` set is
modelled as a list in insertion order; duplicates are harmless because every
consumer either deduplicates or tests membership. -/
def permuteF : Nat → List Char → List Char → List (List Char)
  | 0, _, current => if current.length > 0 then [current] else []
  | fuel + 1, arr, current =>
    (if current.length > 0 then [current] else []) ++
      (picks arr).flatMap (fun p => permuteF fuel p.2 (current ++ [p.1]))

/-- `getPermutations(letters)` of `js/utils.js`. -/
def getPermutations (letters : List Char) : List (List Char) :=
  permuteF letters.length letters []

theorem count_append_singleton (current : List Char) (c x : Char) :
    (current ++ [c]).count x = current.count x + (if (c == x) = true then 1 else 0) := by
  rw [List.count_append, List.count_cons, List.count_nil]
  omega

theorem permuteF_count (fuel : Nat) :
    ∀ arr current r, r ∈ permuteF fuel arr current →
      ∀ x : Char, r.count x ≤ current.count x + arr.count x := by
  induction fuel with
  | zero =>
    intro arr current r hr x
    simp only [permuteF] at hr
    split at hr
    · have h := List.mem_singleton.mp hr
      subst h
      exact Nat.le_add_right _ _
    · cases hr
  | succ fuel ih =>
    intro arr current r hr x
    simp only [permuteF, List.mem_append] at hr
    rcases hr with hr | hr
    · split at hr
      · have h := List.mem_singleton.mp hr
        subst h
        exact Nat.le_add_right _ _
      · cases hr
    · rcases List.mem_flatMap.mp hr with ⟨p, hp, hrp⟩
      have hcnt := ih p.2 (current ++ [p.1]) r hrp x
      have hperm : arr.count x = (p.1 :: p.2).count x := (picks_perm hp).count_eq x
      rw [count_append_singleton] at hcnt
      rw [hperm, List.count_cons]
      omega

/-- Non-recursive part of `combine` in `getCombinations`: when the current
combination is long enough, emit every permutation of it that is still long
enough. -/
def combineBase (minLength : Nat) (current : List Char) : List (List Char) :=
  if minLength ≤ current.length then
    (getPermutations current).filter (fun p => minLength ≤ p.length)
  else []

/-- The `for (let i = index; i < remaining.length; i++)` loop of `combine`,
expressed over the suffix `remaining.slice(index)`: choosing loop index `i`
appends `remaining[i]` to the combination and continues from `i + 1`, which
corresponds to consuming a prefix of the suffix list. -/
def combineLoop (minLength : Nat) : List Char → List Char → List (List Char)
  | [], _ => []
  | x :: rest, current =>
    (combineBase minLength (current ++ [x]) ++ combineLoop minLength rest (current ++ [x])) ++
      combineLoop minLength rest current

/-- `getCombinations(letters, minLength)` of `js/utils.js`: uppercase the
letters, then run `combine(0, [], letterArray)`. -/
def getCombinations (letters : List Char) (minLength : Nat) : List (List Char) :=
  combineBase minLength [] ++ combineLoop minLength (letters.map Char.toUpper) []

theorem combineBase_count (minLength : Nat) (current : List Char) :
    ∀ r ∈ combineBase minLength current, ∀ x : Char, r.count x ≤ current.count x := by
  intro r hr x
  simp only [combineBase] at hr
  split at hr
  · have hrm := List.mem_of_mem_filter hr
    have h := permuteF_count current.length current [] r (by simpa [getPermutations] using hrm) x
    simpa using h
  · cases hr

theorem combineLoop_count (minLength : Nat) :
    ∀ (rem current : List Char), ∀ r ∈ combineLoop minLength rem current,
      ∀ x : Char, r.count x ≤ current.count x + rem.count x := by
  intro rem
  induction rem with
  | nil => intro current r hr; cases hr
  | cons c rest ih =>
    intro current r hr x
    simp only [combineLoop, List.mem_append] at hr
    rcases hr with (hr | hr) | hr
    · have h1 := combineBase_count minLength (current ++ [c]) r hr x
      rw [count_append_singleton] at h1
      rw [List.count_cons]
      omega
    · have h1 := ih (current ++ [c]) r hr x
      rw [count_append_singleton] at h1
      rw [List.count_cons]
      omega
    · have h1 := ih current r hr x
      rw [List.count_cons]
      omega

theorem getCombinations_count (letters : List Char) (minLength : Nat) :
    ∀ r ∈ getCombinations letters minLength,
      ∀ x : Char, r.count x ≤ (letters.map Char.toUpper).count x := by
  intro r hr x
  simp only [getCombinations, List.mem_append] at hr
  rcases hr with hr | hr
  · have h := combineBase_count minLength [] r hr x
    rw [List.count_nil] at h
    omega
  · have h := combineLoop_count minLength (letters.map Char.toUpper) [] r hr x
    simpa using h

/-- Model of `String.prototype.localeCompare` as code-point lexicographic
three-way comparison; on the uppercase A–Z words held by the dictionary the
two orders coincide. -/
def lexCmp : List Char → List Char → Int
  | [], [] => 0
  | [], _ :: _ => -1
  | _ :: _, [] => 1
  | a :: as, b :: bs => if a = b then lexCmp as bs else if a < b then -1 else 1

theorem lexCmp_swap : ∀ a b : List Char, lexCmp b a = - lexCmp a b := by
  intro a
  induction a with
  | nil => intro b; cases b <;> rfl
  | cons x xs ih =>
    intro b
    cases b with
    | nil => rfl
    | cons y ys =>
      simp only [lexCmp]
      by_cases hxy : x = y
      · subst hxy
        rw [if_pos rfl, if_pos rfl, ih ys]
      · have hyx : ¬ y = x := fun h => hxy h.symm
        rcases lt_trichotomy x y with h | h | h
        · rw [if_neg hyx, if_neg (asymm h), if_neg hxy, if_pos h]
          decide
        · exact absurd h hxy
        · rw [if_neg hyx, if_pos h, if_neg hxy, if_neg (asymm h)]

theorem lexCmp_le_trans :
    ∀ a b c : List Char, lexCmp a b ≤ 0 → lexCmp b c ≤ 0 → lexCmp a c ≤ 0 := by
  intro a
  induction a with
  | nil =>
    intro b c _ _
    cases c <;> simp [lexCmp]
  | cons x xs ih =>
    intro b c h1 h2
    cases b with
    | nil => simp [lexCmp] at h1
    | cons y ys =>
      cases c with
      | nil => simp [lexCmp] at h2
      | cons z zs =>
        simp only [lexCmp] at h1 h2 ⊢
        by_cases hxy : x = y
        · subst hxy
          rw [if_pos rfl] at h1
          by_cases hyz : x = z
          · subst hyz
            rw [if_pos rfl] at h2
            rw [if_pos rfl]
            exact ih ys zs h1 h2
          · rw [if_neg hyz] at h2
            rw [if_neg hyz]
            exact h2
        · rw [if_neg hxy] at h1
          have hlt : x < y := by
            by_contra hn
            rw [if_neg hn] at h1
            omega
          by_cases hyz : y = z
          · subst hyz
            rw [if_neg hxy, if_pos hlt]
            omega
          · rw [if_neg hyz] at h2
            have hlt2 : y < z := by
              by_contra hn
              rw [if_neg hn] at h2
              omega
            have hxz : x < z := lt_trans hlt hlt2
            rw [if_neg (ne_of_lt hxz), if_pos hxz]
            omega

/-- An entry `{word, points}` as produced by the list-returning searches. -/
structure WordResult where
  word : List Char
  points : Nat
deriving DecidableEq

/-- An entry `{word, points, startPos}` as produced by
`findPatternMatches`. -/
structure PatResult where
  word : List Char
  points : Nat
  startPos : Nat
deriving DecidableEq

/-- The three-way comparator passed to `sort` by `findWords` and
`findWordsWithFilters`: points descending, then word length descending, then
`localeCompare` ascending. -/
def cmpWord (a b : WordResult) : Int :=
  if a.points = b.points then
    (if a.word.length = b.word.length then lexCmp a.word b.word
     else (b.word.length : Int) - (a.word.length : Int))
  else (b.points : Int) - (a.points : Int)

/-- The three-way comparator passed to `sort` by `findPatternMatches`:
points descending then `localeCompare` ascending (no length tie-break). -/
def cmpPat (a b : PatResult) : Int :=
  if a.points = b.points then lexCmp a.word b.word
  else (b.points : Int) - (a.points : Int)

/-- `a` may precede `b` under the `findWords` comparator. -/
def wordRel (a b : WordResult) : Prop := cmpWord a b ≤ 0

/-- `a` may precede `b` under the `findPatternMatches` comparator. -/
def patRel (a b : PatResult) : Prop := cmpPat a b ≤ 0

instance : DecidableRel wordRel := fun a b =>
  inferInstanceAs (Decidable (cmpWord a b ≤ 0))

instance : DecidableRel patRel := fun a b =>
  inferInstanceAs (Decidable (cmpPat a b ≤ 0))

theorem cmpWord_swap (a b : WordResult) : cmpWord b a = - cmpWord a b := by
  unfold cmpWord
  by_cases hp : a.points = b.points
  · rw [if_pos hp, if_pos hp.symm]
    by_cases hl : a.word.length = b.word.length
    · rw [if_pos hl, if_pos hl.symm, lexCmp_swap]
    · rw [if_neg hl, if_neg (fun h => hl h.symm)]
      omega
  · rw [if_neg hp, if_neg (fun h => hp h.symm)]
    omega

theorem cmpPat_swap (a b : PatResult) : cmpPat b a = - cmpPat a b := by
  unfold cmpPat
  by_cases hp : a.points = b.points
  · rw [if_pos hp, if_pos hp.symm, lexCmp_swap]
  · rw [if_neg hp, if_neg (fun h => hp h.symm)]
    omega

instance : IsTotal WordResult wordRel := by
  constructor
  intro a b
  unfold wordRel
  rw [cmpWord_swap]
  omega

instance : IsTotal PatResult patRel := by
  constructor
  intro a b
  unfold patRel
  rw [cmpPat_swap]
  omega

instance : IsTrans WordResult wordRel := by
  constructor
  intro a b c h1 h2
  unfold wordRel cmpWord at h1 h2 ⊢
  by_cases hab : a.points = b.points
  · by_cases hbc : b.points = c.points
    · rw [if_pos hab] at h1
      rw [if_pos hbc] at h2
      rw [if_pos (hab.trans hbc)]
      by_cases lab : a.word.length = b.word.length
      · by_cases lbc : b.word.length = c.word.length
        · rw [if_pos lab] at h1
          rw [if_pos lbc] at h2
          rw [if_pos (lab.trans lbc)]
          exact lexCmp_le_trans _ _ _ h1 h2
        · rw [if_pos lab] at h1
          rw [if_neg lbc] at h2
          rw [if_neg (by omega : ¬ a.word.length = c.word.length), lab]
          exact h2
      · rw [if_neg lab] at h1
        have hlt : b.word.length < a.word.length := by omega
        by_cases lbc : b.word.length = c.word.length
        · rw [if_pos lbc] at h2
          rw [if_neg (by omega : ¬ a.word.length = c.word.length)]
          omega
        · rw [if_neg lbc] at h2
          have hlt2 : c.word.length < b.word.length := by omega
          rw [if_neg (by omega : ¬ a.word.length = c.word.length)]
          omega
    · rw [if_neg hbc] at h2
      have hlt : c.points < b.points := by omega
      rw [if_neg (by omega : ¬ a.points = c.points)]
      omega
  · rw [if_neg hab] at h1
    have hlt : b.points < a.points := by omega
    by_cases hbc : b.points = c.points
    · rw [if_neg (by omega : ¬ a.points = c.points)]
      omega
    · rw [if_neg hbc] at h2
      have hlt2 : c.points < b.points := by omega
      rw [if_neg (by omega : ¬ a.points = c.points)]
      omega

instance : IsTrans PatResult patRel := by
  constructor
  intro a b c h1 h2
  unfold patRel cmpPat at h1 h2 ⊢
  by_cases hab : a.points = b.points
  · by_cases hbc : b.points = c.points
    · rw [if_pos hab] at h1
      rw [if_pos hbc] at h2
      rw [if_pos (hab.trans hbc)]
      exact lexCmp_le_trans _ _ _ h1 h2
    · rw [if_neg hbc] at h2
      have hlt : c.points < b.points := by omega
      rw [if_neg (by omega : ¬ a.points = c.points)]
      omega
  · rw [if_neg hab] at h1
    have hlt : b.points < a.points := by omega
    by_cases hbc : b.points = c.points
    · rw [if_neg (by omega : ¬ a.points = c.points)]
      omega
    · rw [if_neg hbc] at h2
      have hlt2 : c.points < b.points := by omega
      rw [if_neg (by omega : ¬ a.points = c.points)]
      omega

/-- The `Dictionary` object of `js/dictionary.js`, reduced to the state its
query methods read: the vocabulary (a JS `Set` iterated in insertion order,
modelled as a duplicate-free-by-construction list) and the `loaded` flag. -/
structure Dictionary where
  words : List (List Char)
  loaded : Bool
deriving DecidableEq

/-- JS `String.prototype.startsWith`. -/
def strStartsWith (w p : List Char) : Bool := w.take p.length = p

/-- JS `String.prototype.endsWith`. -/
def strEndsWith (w p : List Char) : Bool := w.drop (w.length - p.length) = p

/-- JS `String.prototype.includes`. -/
def strContainsAt : List Char → List Char → Bool
  | w, p => strStartsWith w p ||
      (match w with
       | [] => false
       | _ :: rest => strContainsAt rest p)

/-- The duplicate-removal pass at the end of `findWords`: keep a result only
if its word has not been `seen` before. -/
def dedupWords : List WordResult → List (List Char) → List WordResult
  | [], _ => []
  | r :: rest, seen =>
    if r.word ∈ seen then dedupWords rest seen
    else r :: dedupWords rest (r.word :: seen)

/-- `Dictionary.findWords(letters, minLength)` from `js/dictionary.js`:
generate rack combinations, keep the ones in the vocabulary, score, sort by
the three-key comparator, and deduplicate by word. -/
def findWords (d : Dictionary) (letters : List Char) (minLength : Nat) : List WordResult :=
  if d.loaded = false then []
  else
    dedupWords
      (List.insertionSort wordRel
        ((getCombinations letters minLength).filterMap
          (fun combo =>
            if combo ∈ d.words then some ⟨combo, calculateWordPoints combo⟩ else none)))
      []

/-- The `{startsWith, endsWith, contains}` filter object. -/
structure Filters where
  startsWith : List Char
  endsWith : List Char
  contains : List Char
deriving DecidableEq

/-- `Dictionary.findWordsWithFilters(letters, minLength, filters)` from
`js/dictionary.js`. Filter letters are concatenated into a free board pool;
a search with no rack letters and no wildcards is filter-only and skips the
formability check, and its output is capped at 200 entries. -/
def findWordsWithFilters (d : Dictionary) (letters : List Char) (minLength : Nat)
    (f : Filters) : List WordResult :=
  if d.loaded = false then []
  else
    let startsUpper := f.startsWith.map Char.toUpper
    let endsUpper := f.endsWith.map Char.toUpper
    let containsUpper := f.contains.map Char.toUpper
    let wildcardCount := letters.countP isWildcard
    let regularLetters := (letters.filter isNotWildcard).map Char.toUpper
    let filterOnlySearch := regularLetters.length = 0 ∧ wildcardCount = 0
    let boardLetters := startsUpper ++ endsUpper ++ containsUpper
    let validWords := d.words.filterMap (fun word =>
      if word.length < minLength then none
      else if startsUpper ≠ [] ∧ strStartsWith word startsUpper = false then none
      else if endsUpper ≠ [] ∧ strEndsWith word endsUpper = false then none
      else if containsUpper ≠ [] ∧ strContainsAt word containsUpper = false then none
      else if filterOnlySearch then some ⟨word, calculateWordPoints word⟩
      else if canFormWordWithBoard word regularLetters wildcardCount boardLetters
      then some ⟨word, calculateWordPoints word⟩
      else none)
    let sorted := List.insertionSort wordRel validWords
    if filterOnlySearch ∧ 200 < sorted.length then sorted.take 200 else sorted

/-- Index of the first pinned slot (`pattern[i] !== ''`), if any; JS uses the
sentinel `-1` for "none". -/
def firstFixedPos (pattern : List (Option Char)) : Option Nat :=
  List.findIdx? (fun o => o.isSome) pattern

/-- Index of the last pinned slot, if any. -/
def lastFixedPos (pattern : List (Option Char)) : Option Nat :=
  (List.findIdx? (fun o => o.isSome) pattern.reverse).map
    (fun i => pattern.length - 1 - i)

/-- First index that is not locked-empty; defaults to `0` exactly as the JS
initialisation does when every slot is locked. -/
def firstAvailPos (pattern : List (Option Char)) (lockedEmpty : List Bool) : Nat :=
  ((List.range pattern.length).find? (fun i => !(lockedEmpty.getD i false))).getD 0

/-- Last index that is not locked-empty; defaults to `pattern.length - 1`
exactly as the JS initialisation does. -/
def lastAvailPos (pattern : List (Option Char)) (lockedEmpty : List Bool) : Nat :=
  ((List.range pattern.length).reverse.find? (fun i => !(lockedEmpty.getD i false))).getD
    (pattern.length - 1)

/-- The inner placement walk of `findPatternMatches`: check the word against
the wheel slots from `startPos` on, returning the letters needed from the
rack when every position is usable and every pinned slot matches. -/
def checkPlacement (pattern : List (Option Char)) (lockedEmpty : List Bool) :
    List Char → Nat → Option (List Char)
  | [], _ => some []
  | c :: rest, pos =>
    if lockedEmpty.getD pos false then none
    else
      match pattern.getD pos none with
      | some pc => if c = pc.toUpper then checkPlacement pattern lockedEmpty rest (pos + 1) else none
      | none => (checkPlacement pattern lockedEmpty rest (pos + 1)).map (fun l => c :: l)

/-- The `for (let startPos = earliestStart; ...)` loop of
`findPatternMatches`: return the first offset whose end position covers the
pinned range, stays inside the available range, whose placement walk
succeeds, and whose needed letters are formable from the rack. -/
def findOffset (pattern : List (Option Char)) (lockedEmpty : List Bool)
    (word availableLetters : List Char) (wildcardCount lastFixed lastAvail : Nat) :
    List Nat → Option Nat
  | [] => none
  | s :: rest =>
    if s + word.length - 1 < lastFixed ∨ lastAvail < s + word.length - 1 then
      findOffset pattern lockedEmpty word availableLetters wildcardCount lastFixed lastAvail rest
    else
      match checkPlacement pattern lockedEmpty word s with
      | some lettersNeeded =>
        if canFormFromRack lettersNeeded availableLetters wildcardCount then some s
        else findOffset pattern lockedEmpty word availableLetters wildcardCount lastFixed lastAvail rest
      | none =>
        findOffset pattern lockedEmpty word availableLetters wildcardCount lastFixed lastAvail rest

/-- `Dictionary.findPatternMatches(pattern, lockedEmpty, rackLetters)` from
`js/dictionary.js`. The `lastFixedPos` branch returning `[]` is unreachable
(the source sets both sentinels in one loop, so `lastFixedPos` is defined
whenever `firstFixedPos` is); it is spelled out to keep the definition
total. -/
def findPatternMatches (d : Dictionary) (pattern : List (Option Char))
    (lockedEmpty : List Bool) (rackLetters : List Char) : List PatResult :=
  if d.loaded = false then []
  else
    let wildcardCount := rackLetters.countP isWildcard
    let availableLetters := (rackLetters.filter isNotWildcard).map Char.toUpper
    match firstFixedPos pattern with
    | none => []
    | some firstFixed =>
      match lastFixedPos pattern with
      | none => []
      | some lastFixed =>
        let firstAvail := firstAvailPos pattern lockedEmpty
        let lastAvail := lastAvailPos pattern lockedEmpty
        let minLength := max 2 (lastFixed - firstFixed + 1)
        let maxLength := lastAvail - firstAvail + 1
        let results := d.words.filterMap (fun word =>
          if word.length < minLength ∨ maxLength < word.length then none
          else
            (findOffset pattern lockedEmpty word availableLetters wildcardCount
                lastFixed lastAvail
                (List.range' firstAvail (firstFixed + 1 - firstAvail))).map
              (fun s => ⟨word, calculateWordPoints word, s⟩))
        List.insertionSort patRel results

/-- The inner placement walk of `getRandomPatternWord` (no needed-letter
collection, no rack check). -/
def checkMatch (pattern : List (Option Char)) (lockedEmpty : List Bool) :
    List Char → Nat → Bool
  | [], _ => true
  | c :: rest, pos =>
    if lockedEmpty.getD pos false then false
    else
      match pattern.getD pos none with
      | some pc => if c = pc.toUpper then checkMatch pattern lockedEmpty rest (pos + 1) else false
      | none => checkMatch pattern lockedEmpty rest (pos + 1)

/-- The offset loop of `getRandomPatternWord`: first offset that covers the
pinned range, stays inside the available range, and matches the pattern. -/
def findOffsetRand (pattern : List (Option Char)) (lockedEmpty : List Bool)
    (word : List Char) (lastFixed lastAvail : Nat) : List Nat → Option Nat
  | [] => none
  | s :: rest =>
    if s + word.length - 1 < lastFixed ∨ lastAvail < s + word.length - 1 then
      findOffsetRand pattern lockedEmpty word lastFixed lastAvail rest
    else if checkMatch pattern lockedEmpty word s then some s
    else findOffsetRand pattern lockedEmpty word lastFixed lastAvail rest

/-- The `matchingWords` candidate list that
`Dictionary.getRandomPatternWord(pattern, lockedEmpty)` enumerates before
drawing one element uniformly at random (`Math.floor(Math.random() * n)`);
the random draw itself is not part of the embedding, only the candidate set
it draws from. -/
def getRandomPatternWordCandidates (d : Dictionary) (pattern : List (Option Char))
    (lockedEmpty : List Bool) : List (List Char × Nat) :=
  if d.loaded = false then []
  else
    match firstFixedPos pattern with
    | none => []
    | some firstFixed =>
      match lastFixedPos pattern with
      | none => []
      | some lastFixed =>
        let firstAvail := firstAvailPos pattern lockedEmpty
        let lastAvail := lastAvailPos pattern lockedEmpty
        let minLength := max 2 (lastFixed - firstFixed + 1)
        let maxLength := lastAvail - firstAvail + 1
        d.words.filterMap (fun word =>
          if word.length < minLength ∨ maxLength < word.length then none
          else
            (findOffsetRand pattern lockedEmpty word lastFixed lastAvail
                (List.range' firstAvail (firstFixed + 1 - firstAvail))).map
              (fun s => (word, s)))

/-- `LetterRack.findWords(filters)` from `js/letterRack.js`: the caller-side
guard returns an empty list without invoking the dictionary search when the
rack holds fewer than two letters and no filter is set; otherwise it calls
`findWordsWithFilters` with `minLength = 2`. The `onWordsFound` UI callback
is ignored. -/
def letterRackFindWords (d : Dictionary) (letters : List Char) (f : Filters) :
    List WordResult :=
  if letters.length < 2 ∧ ¬(f.startsWith ≠ [] ∨ f.endsWith ≠ [] ∨ f.contains ≠ []) then []
  else findWordsWithFilters d letters 2 f

/-- C8: while the vocabulary is not loaded, every query — `findWords`,
`findWordsWithFilters`, `findPatternMatches` — returns an empty result list
for any arguments (these are total functions, so no exception is possible). -/
theorem notLoaded_queries_empty (d : Dictionary) (letters : List Char) (minLength : Nat)
    (f : Filters) (pattern : List (Option Char)) (lockedEmpty : List Bool)
    (rack : List Char) (h : d.loaded = false) :
    findWords d letters minLength = [] ∧
    findWordsWithFilters d letters minLength f = [] ∧
    findPatternMatches d pattern lockedEmpty rack = [] := by
  refine ⟨?_, ?_, ?_⟩ <;>
    simp [findWords, findWordsWithFilters, findPatternMatches, h]

theorem notLoaded_queries_empty_witness :
    (⟨[['C', 'A', 'T']], false⟩ : Dictionary).loaded = false ∧
    (findWords ⟨[['C', 'A', 'T']], false⟩ ['A', 'T'] 2 = [] ∧
      findWordsWithFilters ⟨[['C', 'A', 'T']], false⟩ ['A', 'T'] 2 ⟨['A'], [], []⟩ = [] ∧
      findPatternMatches ⟨[['C', 'A', 'T']], false⟩ [some 'A'] [false] ['C'] = []) :=
  ⟨rfl, notLoaded_queries_empty ⟨[['C', 'A', 'T']], false⟩ ['A', 'T'] 2 ⟨['A'], [], []⟩
    [some 'A'] [false] ['C'] rfl⟩

/-- C9: with vocabulary exactly `{"CAT"}`, a five-slot pattern pinned to 'A'
at index 2 with no forbidden slots, and rack "CTBT", `findPatternMatches`
returns exactly one result: the word CAT, 5 points, starting at slot 1. -/
theorem scenarioC_exact :
    findPatternMatches ⟨[['C', 'A', 'T']], true⟩
      [none, none, some 'A', none, none] [false, false, false, false, false]
      ['C', 'T', 'B', 'T'] = [⟨['C', 'A', 'T'], 5, 1⟩] := by decide

/-- Capping helper: an `if`-guarded `take 200` never yields more than 200
entries when the extra guard `B` is known to hold. -/
theorem cap_length {α : Type} (B : Prop) [Decidable B] (l : List α) (hB : B) :
    (if B ∧ 200 < l.length then l.take 200 else l).length ≤ 200 := by
  split
  · rw [List.length_take]
    omega
  · rename_i h
    have := not_and.mp h hB
    omega

/-- C6: in filter-only mode (no rack letters, no wildcards, at least one
filter set) the output of `findWordsWithFilters` never exceeds 200 entries,
whatever the vocabulary. -/
theorem filterOnly_capped (d : Dictionary) (letters : List Char) (minLength : Nat)
    (f : Filters) (h0 : letters.filter isNotWildcard = [])
    (hw : letters.countP isWildcard = 0)
    (hf : f.startsWith ≠ [] ∨ f.endsWith ≠ [] ∨ f.contains ≠ []) :
    (findWordsWithFilters d letters minLength f).length ≤ 200 := by
  unfold findWordsWithFilters
  split
  · simp
  · simp only []
    exact cap_length _ _ (by simp [h0, hw])

theorem filterOnly_capped_witness :
    (([] : List Char).filter isNotWildcard = [] ∧
      ([] : List Char).countP isWildcard = 0 ∧
      ((⟨['Q', 'I'], [], []⟩ : Filters).startsWith ≠ [] ∨
        (⟨['Q', 'I'], [], []⟩ : Filters).endsWith ≠ [] ∨
        (⟨['Q', 'I'], [], []⟩ : Filters).contains ≠ [])) ∧
    (findWordsWithFilters ⟨[['C', 'A', 'T']], true⟩ [] 2 ⟨['Q', 'I'], [], []⟩).length ≤ 200 :=
  ⟨⟨by decide, by decide, by decide⟩,
    filterOnly_capped ⟨[['C', 'A', 'T']], true⟩ [] 2 ⟨['Q', 'I'], [], []⟩
      (by decide) (by decide) (by decide)⟩

theorem wildcard_partition (l : List Char) :
    l.countP isWildcard + l.countP isNotWildcard = l.length := by
  induction l with
  | nil => rfl
  | cons c cs ih =>
    simp only [List.countP_cons, List.length_cons]
    by_cases h : c = '?'
    · have h1 : isWildcard c = true := by simp [isWildcard, h]
      have h2 : isNotWildcard c = false := by simp [isNotWildcard, h]
      rw [h1, h2]
      simp only [eq_self_iff_true, if_true, Bool.false_eq_true, if_false]
      omega
    · have h1 : isWildcard c = false := by simp [isWildcard, h]
      have h2 : isNotWildcard c = true := by simp [isNotWildcard, h]
      rw [h1, h2]
      simp only [eq_self_iff_true, if_true, Bool.false_eq_true, if_false]
      omega

/-- C7 (counterexample): `findWordsWithFilters` itself has no fast path for
racks shorter than `minLength`; with the empty rack and all filters empty it
enters filter-only mode and returns vocabulary words instead of the empty
list the claim requires. -/
theorem shortRack_fastPath_counterexample :
    ([] : List Char).length < 2 ∧
    (⟨[], [], []⟩ : Filters).startsWith = [] ∧
    (⟨[], [], []⟩ : Filters).endsWith = [] ∧
    (⟨[], [], []⟩ : Filters).contains = [] ∧
    findWordsWithFilters ⟨[['C', 'A', 'T']], true⟩ [] 2 ⟨[], [], []⟩ =
      [⟨['C', 'A', 'T'], 5⟩] ∧
    findWordsWithFilters ⟨[['C', 'A', 'T']], true⟩ [] 2 ⟨[], [], []⟩ ≠ [] := by
  refine ⟨by decide, rfl, rfl, rfl, by decide, by decide⟩

/-- C7 (amended): with every filter empty and a NONEMPTY rack shorter than
`minLength`, `findWordsWithFilters` returns the empty list for every
vocabulary (the scan can never succeed, as no scanned word is formable); the
empty-rack fast path that skips the dictionary search lives in the caller
`LetterRack.findWords`, which returns empty without invoking
`findWordsWithFilters` whenever fewer than two rack letters and no filters
are present. -/
theorem shortRack_empty (d : Dictionary) (letters : List Char) (minLength : Nat)
    (f : Filters) (hs : f.startsWith = []) (he : f.endsWith = []) (hc : f.contains = [])
    (hne : letters ≠ []) (hlen : letters.length < minLength) :
    findWordsWithFilters d letters minLength f = [] ∧
    (∀ (d2 : Dictionary) (short : List Char), short.length < 2 →
      letterRackFindWords d2 short f = []) := by
  constructor
  · unfold findWordsWithFilters
    split
    · rfl
    · simp only [hs, he, hc, List.map_nil, List.nil_append]
      have hvalid : (d.words.filterMap (fun word =>
          if word.length < minLength then (none : Option WordResult)
          else if ([] : List Char) ≠ [] ∧ strStartsWith word [] = false then none
          else if ([] : List Char) ≠ [] ∧ strEndsWith word [] = false then none
          else if ([] : List Char) ≠ [] ∧ strContainsAt word [] = false then none
          else if ((letters.filter isNotWildcard).map Char.toUpper).length = 0 ∧
              letters.countP isWildcard = 0 then some ⟨word, calculateWordPoints word⟩
          else if canFormWordWithBoard word ((letters.filter isNotWildcard).map Char.toUpper)
              (letters.countP isWildcard) []
          then some ⟨word, calculateWordPoints word⟩
          else none)) = [] := by
        rw [List.filterMap_eq_nil_iff]
        intro word hword
        by_cases hwl : word.length < minLength
        · rw [if_pos hwl]
        · rw [if_neg hwl]
          rw [if_neg (by simp), if_neg (by simp), if_neg (by simp)]
          have hnot : ¬ (((letters.filter isNotWildcard).map Char.toUpper).length = 0 ∧
              letters.countP isWildcard = 0) := by
            intro hand
            rcases hand with ⟨hr, hw⟩
            rw [List.length_map] at hr
            have := wildcard_partition letters
            have : letters.length = 0 := by
              have hcf : letters.countP isNotWildcard =
                  (letters.filter isNotWildcard).length :=
                List.countP_eq_length_filter isNotWildcard letters
              omega
            exact hne (List.eq_nil_of_length_eq_zero this)
          rw [if_neg hnot]
          have hform : canFormWordWithBoard word
              ((letters.filter isNotWildcard).map Char.toUpper)
              (letters.countP isWildcard) [] = false := by
            cases hcf : canFormWordWithBoard word
                ((letters.filter isNotWildcard).map Char.toUpper)
                (letters.countP isWildcard) [] with
            | false => rfl
            | true =>
              exfalso
              have hle := canFormWordWithBoardAux_length word
                ((letters.filter isNotWildcard).map Char.toUpper) []
                (letters.countP isWildcard) 0 (Nat.zero_le _) hcf
              rw [List.length_map, List.length_nil] at hle
              have hcf2 : letters.countP isNotWildcard =
                  (letters.filter isNotWildcard).length :=
                List.countP_eq_length_filter isNotWildcard letters
              have := wildcard_partition letters
              omega
          rw [hform]
          simp
      rw [hvalid]
      simp
  · intro d2 short hshort
    unfold letterRackFindWords
    rw [if_pos]
    refine ⟨hshort, ?_⟩
    simp [hs, he, hc]

theorem shortRack_empty_witness :
    ((⟨[], [], []⟩ : Filters).startsWith = [] ∧
      (⟨[], [], []⟩ : Filters).endsWith = [] ∧
      (⟨[], [], []⟩ : Filters).contains = [] ∧
      (['A'] : List Char) ≠ [] ∧ (['A'] : List Char).length < 2) ∧
    (findWordsWithFilters ⟨[['C', 'A', 'T']], true⟩ ['A'] 2 ⟨[], [], []⟩ = [] ∧
      (∀ (d2 : Dictionary) (short : List Char), short.length < 2 →
        letterRackFindWords d2 short ⟨[], [], []⟩ = [])) :=
  ⟨⟨rfl, rfl, rfl, by decide, by decide⟩,
    shortRack_empty ⟨[['C', 'A', 'T']], true⟩ ['A'] 2 ⟨[], [], []⟩ rfl rfl rfl
      (by decide) (by decide)⟩

theorem dedupWords_sublist : ∀ (l : List WordResult) (seen : List (List Char)),
    (dedupWords l seen).Sublist l := by
  intro l
  induction l with
  | nil => intro seen; simp [dedupWords]
  | cons r rest ih =>
    intro seen
    simp only [dedupWords]
    split
    · exact (ih seen).cons r
    · exact (ih (r.word :: seen)).cons₂ r

theorem findWords_formable (d : Dictionary) (letters : List Char) (minLength : Nat)
    (r : WordResult) (hr : r ∈ findWords d letters minLength) :
    canFormWord r.word ((letters.filter isNotWildcard).map Char.toUpper)
      (letters.countP isWildcard) = true := by
  unfold findWords at hr
  split at hr
  · cases hr
  · have hr2 := (dedupWords_sublist _ _).subset hr
    rw [List.mem_insertionSort] at hr2
    rcases List.mem_filterMap.mp hr2 with ⟨combo, hcombo, heq⟩
    split at heq
    · rw [Option.some.injEq] at heq
      subst heq
      have hcount := getCombinations_count letters minLength combo hcombo
      rw [canFormWord_eq_needWild]
      have hneed := needWild_le_of_counts combo (letters.map Char.toUpper) hcount
      rw [count_qmark_map_toUpper] at hneed
      rw [map_toUpper_filter_qmark]
      simpa using hneed
    · cases heq

theorem mem_of_cap {α : Type} {C : Prop} [Decidable C] {l : List α} {x : α}
    (h : x ∈ (if C then l.take 200 else l)) : x ∈ l := by
  split at h
  · exact (List.take_sublist _ _).subset h
  · exact h

theorem findWordsWithFilters_formable (d : Dictionary) (letters : List Char)
    (minLength : Nat) (f : Filters) (r : WordResult)
    (hr : r ∈ findWordsWithFilters d letters minLength f)
    (hrack : letters.filter isNotWildcard ≠ [] ∨ letters.countP isWildcard ≠ 0) :
    canFormWordWithBoard r.word ((letters.filter isNotWildcard).map Char.toUpper)
      (letters.countP isWildcard)
      (f.startsWith.map Char.toUpper ++ f.endsWith.map Char.toUpper ++
        f.contains.map Char.toUpper) = true := by
  unfold findWordsWithFilters at hr
  split at hr
  · cases hr
  · simp only [] at hr
    have hr2 := mem_of_cap hr
    rw [List.mem_insertionSort] at hr2
    rcases List.mem_filterMap.mp hr2 with ⟨word, hword, heq⟩
    split at heq
    · cases heq
    · split at heq
      · cases heq
      · split at heq
        · cases heq
        · split at heq
          · cases heq
          · split at heq
            · rename_i hfo
              exfalso
              rcases hfo with ⟨hl, hw⟩
              rw [List.length_map] at hl
              rcases hrack with h1 | h1
              · exact h1 (List.eq_nil_of_length_eq_zero hl)
              · exact h1 hw
            · split at heq
              · rename_i hform
                rw [Option.some.injEq] at heq
                subst heq
                exact hform
              · cases heq

/-- C3 (amended): every word returned by `findWords` is formable from the
rack alone (`canFormWord` with the rack's non-wildcard letters uppercased
and its wildcard count); every word returned by `findWordsWithFilters` when
rack letters or wildcards are present is formable from the rack PLUS the
free board pool made of the uppercased filter letters
(`canFormWordWithBoard`), which coincides with rack-alone formability only
when all three filters are empty. -/
theorem search_results_formable (d : Dictionary) (letters : List Char) (minLength : Nat)
    (f : Filters) (r : WordResult) :
    (r ∈ findWords d letters minLength →
      canFormWord r.word ((letters.filter isNotWildcard).map Char.toUpper)
        (letters.countP isWildcard) = true) ∧
    (r ∈ findWordsWithFilters d letters minLength f →
      (letters.filter isNotWildcard ≠ [] ∨ letters.countP isWildcard ≠ 0) →
      canFormWordWithBoard r.word ((letters.filter isNotWildcard).map Char.toUpper)
        (letters.countP isWildcard)
        (f.startsWith.map Char.toUpper ++ f.endsWith.map Char.toUpper ++
          f.contains.map Char.toUpper) = true) :=
  ⟨fun hr => findWords_formable d letters minLength r hr,
   fun hr hrack => findWordsWithFilters_formable d letters minLength f r hr hrack⟩

theorem search_results_formable_witness :
    ((⟨['A', 'T'], 2⟩ : WordResult) ∈ findWords ⟨[['A', 'T']], true⟩ ['A', 'T'] 2 ∧
      (⟨['A', 'T'], 2⟩ : WordResult) ∈
        findWordsWithFilters ⟨[['A', 'T']], true⟩ ['A', 'T'] 2 ⟨[], [], []⟩ ∧
      ((['A', 'T'] : List Char).filter isNotWildcard ≠ [] ∨
        (['A', 'T'] : List Char).countP isWildcard ≠ 0)) ∧
    canFormWord (⟨['A', 'T'], 2⟩ : WordResult).word
      (((['A', 'T'] : List Char).filter isNotWildcard).map Char.toUpper)
      ((['A', 'T'] : List Char).countP isWildcard) = true ∧
    canFormWordWithBoard (⟨['A', 'T'], 2⟩ : WordResult).word
      (((['A', 'T'] : List Char).filter isNotWildcard).map Char.toUpper)
      ((['A', 'T'] : List Char).countP isWildcard)
      ((⟨[], [], []⟩ : Filters).startsWith.map Char.toUpper ++
        (⟨[], [], []⟩ : Filters).endsWith.map Char.toUpper ++
        (⟨[], [], []⟩ : Filters).contains.map Char.toUpper) = true :=
  ⟨⟨by decide, by decide, by decide⟩,
    (search_results_formable ⟨[['A', 'T']], true⟩ ['A', 'T'] 2 ⟨[], [], []⟩
      ⟨['A', 'T'], 2⟩).1 (by decide),
    (search_results_formable ⟨[['A', 'T']], true⟩ ['A', 'T'] 2 ⟨[], [], []⟩
      ⟨['A', 'T'], 2⟩).2 (by decide) (by decide)⟩

/-- C3 (counterexample): with rack "X" (rack letters present) and filter
`startsWith = "AT"`, `findWordsWithFilters` returns the word AT even though
AT is not formable from the rack alone — the filter letters act as a free
pool, so the claim `canFormWord(word, rackLiterals, wildcardCount)` fails. -/
theorem search_results_formable_counterexample :
    (⟨['A', 'T'], 2⟩ : WordResult) ∈
      findWordsWithFilters ⟨[['A', 'T']], true⟩ ['X'] 2 ⟨['A', 'T'], [], []⟩ ∧
    ((['X'] : List Char).filter isNotWildcard ≠ [] ∨
      (['X'] : List Char).countP isWildcard ≠ 0) ∧
    canFormWord (⟨['A', 'T'], 2⟩ : WordResult).word
      (((['X'] : List Char).filter isNotWildcard).map Char.toUpper)
      ((['X'] : List Char).countP isWildcard) = false := by
  refine ⟨by decide, by decide, by decide⟩

/-- The sort order claimed for `findWords`/`findWordsWithFilters` output:
points non-increasing, length non-increasing within equal points,
lexicographically non-decreasing within equal points and length. -/
def wordOrdered (a b : WordResult) : Prop :=
  b.points ≤ a.points ∧ (a.points = b.points → b.word.length ≤ a.word.length) ∧
  (a.points = b.points → a.word.length = b.word.length → lexCmp a.word b.word ≤ 0)

/-- The sort order claimed for `findPatternMatches` output: points
non-increasing, lexicographically non-decreasing within equal points, with
no length tie-break. -/
def patOrdered (a b : PatResult) : Prop :=
  b.points ≤ a.points ∧ (a.points = b.points → lexCmp a.word b.word ≤ 0)

theorem pairwise_of_cap {α : Type} {C : Prop} [Decidable C] {l : List α}
    {R : α → α → Prop} (h : l.Pairwise R) : (if C then l.take 200 else l).Pairwise R := by
  split
  · exact List.Pairwise.sublist (List.take_sublist _ _) h
  · exact h

theorem wordRel_imp_ordered {a b : WordResult} (h : wordRel a b) : wordOrdered a b := by
  unfold wordRel cmpWord at h
  by_cases hp : a.points = b.points
  · rw [if_pos hp] at h
    by_cases hl : a.word.length = b.word.length
    · rw [if_pos hl] at h
      exact ⟨le_of_eq hp.symm, fun _ => le_of_eq hl.symm, fun _ _ => h⟩
    · rw [if_neg hl] at h
      exact ⟨le_of_eq hp.symm, fun _ => by omega, fun _ hll => absurd hll hl⟩
  · rw [if_neg hp] at h
    exact ⟨by omega, fun he => absurd he hp, fun he _ => absurd he hp⟩

theorem patRel_imp_ordered {a b : PatResult} (h : patRel a b) : patOrdered a b := by
  unfold patRel cmpPat at h
  by_cases hp : a.points = b.points
  · rw [if_pos hp] at h
    exact ⟨le_of_eq hp.symm, fun _ => h⟩
  · rw [if_neg hp] at h
    exact ⟨by omega, fun he => absurd he hp⟩

/-- C5: every search output is sorted: `findWords` and
`findWordsWithFilters` non-increasing in points, then non-increasing in
length, then lexicographically non-decreasing; `findPatternMatches`
non-increasing in points then lexicographically non-decreasing with no
length tie-break. -/
theorem search_results_sorted (d : Dictionary) (letters : List Char) (minLength : Nat)
    (f : Filters) (pattern : List (Option Char)) (lockedEmpty : List Bool)
    (rack : List Char) :
    (findWords d letters minLength).Pairwise wordOrdered ∧
    (findWordsWithFilters d letters minLength f).Pairwise wordOrdered ∧
    (findPatternMatches d pattern lockedEmpty rack).Pairwise patOrdered := by
  refine ⟨?_, ?_, ?_⟩
  · unfold findWords
    split
    · simp
    · exact List.Pairwise.sublist (dedupWords_sublist _ _)
        ((List.sorted_insertionSort wordRel _).imp (fun h => wordRel_imp_ordered h))
  · unfold findWordsWithFilters
    split
    · simp
    · simp only []
      exact pairwise_of_cap
        ((List.sorted_insertionSort wordRel _).imp (fun h => wordRel_imp_ordered h))
  · unfold findPatternMatches
    split
    · simp
    · simp only []
      split
      · simp
      · split
        · simp
        · exact (List.sorted_insertionSort patRel _).imp (fun h => patRel_imp_ordered h)

theorem checkPlacement_sound (pattern : List (Option Char)) (lockedEmpty : List Bool) :
    ∀ (w : List Char) (pos : Nat) (needed : List Char),
      checkPlacement pattern lockedEmpty w pos = some needed →
      ∀ i, i < w.length →
        lockedEmpty.getD (pos + i) false = false ∧
        ∀ pc, pattern.getD (pos + i) none = some pc →
          w.getD i ' ' = Char.toUpper pc := by
  intro w
  induction w with
  | nil =>
    intro pos needed _ i hi
    exact absurd hi (Nat.not_lt_zero i)
  | cons c rest ih =>
    intro pos needed hcp i hi
    simp only [checkPlacement] at hcp
    by_cases hlk : lockedEmpty.getD pos false = true
    · rw [if_pos hlk] at hcp; cases hcp
    · rw [if_neg hlk] at hcp
      have hlk2 : lockedEmpty.getD pos false = false := by
        cases h : lockedEmpty.getD pos false
        · rfl
        · exact absurd h hlk
      cases hpat : pattern.getD pos none with
      | some pc0 =>
        simp only [hpat] at hcp
        by_cases hm : c = Char.toUpper pc0
        · rw [if_pos hm] at hcp
          cases i with
          | zero =>
            rw [Nat.add_zero]
            refine ⟨hlk2, ?_⟩
            intro pc2 hpc2
            rw [hpat] at hpc2
            rw [Option.some.injEq] at hpc2
            subst hpc2
            simpa using hm
          | succ j =>
            have hres := ih (pos + 1) needed hcp j (by simpa using hi)
            rw [show pos + (j + 1) = (pos + 1) + j by omega]
            exact ⟨hres.1, by simpa using hres.2⟩
        · rw [if_neg hm] at hcp; cases hcp
      | none =>
        simp only [hpat] at hcp
        rcases Option.map_eq_some'.mp hcp with ⟨needed2, hcp2, _⟩
        cases i with
        | zero =>
          rw [Nat.add_zero]
          refine ⟨hlk2, ?_⟩
          intro pc2 hpc2
          rw [hpat] at hpc2
          cases hpc2
        | succ j =>
          have hres := ih (pos + 1) needed2 hcp2 j (by simpa using hi)
          rw [show pos + (j + 1) = (pos + 1) + j by omega]
          exact ⟨hres.1, by simpa using hres.2⟩

theorem findOffset_eq_some (pattern : List (Option Char)) (lockedEmpty : List Bool)
    (word avail : List Char) (wilds lf la : Nat) :
    ∀ (offs : List Nat) (s : Nat),
      findOffset pattern lockedEmpty word avail wilds lf la offs = some s →
      s ∈ offs ∧ lf ≤ s + word.length - 1 ∧ s + word.length - 1 ≤ la ∧
      ∃ needed, checkPlacement pattern lockedEmpty word s = some needed ∧
        canFormFromRack needed avail wilds = true := by
  intro offs
  induction offs with
  | nil => intro s h; cases h
  | cons t rest ih =>
    intro s h
    simp only [findOffset] at h
    by_cases hskip : t + word.length - 1 < lf ∨ la < t + word.length - 1
    · rw [if_pos hskip] at h
      have hres := ih s h
      exact ⟨List.mem_cons_of_mem _ hres.1, hres.2⟩
    · rw [if_neg hskip] at h
      cases hcp : checkPlacement pattern lockedEmpty word t with
      | some needed =>
        simp only [hcp] at h
        by_cases hcf : canFormFromRack needed avail wilds = true
        · rw [if_pos hcf] at h
          rw [Option.some.injEq] at h
          subst h
          push_neg at hskip
          exact ⟨List.mem_cons_self _ _, by omega, by omega, needed, hcp, hcf⟩
        · rw [if_neg hcf] at h
          have hres := ih s h
          exact ⟨List.mem_cons_of_mem _ hres.1, hres.2⟩
      | none =>
        simp only [hcp] at h
        have hres := ih s h
        exact ⟨List.mem_cons_of_mem _ hres.1, hres.2⟩

/-- C1: every result of `findPatternMatches` respects the derived bounds and
the pattern: its length lies between `max 2 (lastFixed - firstFixed + 1)`
and `lastAvail - firstAvail + 1`, its start offset lies in
`[firstAvail, firstFixed]`, its end offset lies in `[lastFixed, lastAvail]`,
every pinned slot it covers carries exactly the pinned letter, and it covers
no locked-empty slot. The hypothesis `hU` states the documented input
contract that pattern letters are stored uppercase (the source compares
against `patternChar.toUpperCase()`). -/
theorem findPatternMatches_results_sound (d : Dictionary)
    (pattern : List (Option Char)) (lockedEmpty : List Bool) (rack : List Char)
    (r : PatResult)
    (hU : ∀ i, i < pattern.length →
      (pattern.getD i none).map Char.toUpper = pattern.getD i none)
    (hr : r ∈ findPatternMatches d pattern lockedEmpty rack) :
    ∃ firstFixed lastFixed,
      firstFixedPos pattern = some firstFixed ∧
      lastFixedPos pattern = some lastFixed ∧
      max 2 (lastFixed - firstFixed + 1) ≤ r.word.length ∧
      r.word.length ≤ lastAvailPos pattern lockedEmpty - firstAvailPos pattern lockedEmpty + 1 ∧
      firstAvailPos pattern lockedEmpty ≤ r.startPos ∧
      r.startPos ≤ firstFixed ∧
      lastFixed ≤ r.startPos + r.word.length - 1 ∧
      r.startPos + r.word.length - 1 ≤ lastAvailPos pattern lockedEmpty ∧
      (∀ P pc, r.startPos ≤ P → P ≤ r.startPos + r.word.length - 1 →
        pattern.getD P none = some pc → r.word.getD (P - r.startPos) ' ' = pc) ∧
      (∀ P, r.startPos ≤ P → P ≤ r.startPos + r.word.length - 1 →
        lockedEmpty.getD P false = false) := by
  unfold findPatternMatches at hr
  split at hr
  · cases hr
  · simp only [] at hr
    split at hr
    · cases hr
    · rename_i firstFixed heq1
      split at hr
      · cases hr
      · rename_i lastFixed heq2
        rw [List.mem_insertionSort] at hr
        rcases List.mem_filterMap.mp hr with ⟨word, hword, heq⟩
        split at heq
        · cases heq
        · rename_i hlen
          push_neg at hlen
          rcases Option.map_eq_some'.mp heq with ⟨s, hfo, hmk⟩
          have hres := findOffset_eq_some pattern lockedEmpty word
            ((rack.filter isNotWildcard).map Char.toUpper) (rack.countP isWildcard)
            lastFixed (lastAvailPos pattern lockedEmpty) _ s hfo
          rcases hres with ⟨hmem, hlf, hla, needed, hcp, _⟩
          rcases List.mem_range'.mp hmem with ⟨j, hj, hsj⟩
          have hw : r.word = word := by rw [← hmk]
          have hs2 : r.startPos = s := by rw [← hmk]
          rw [hw, hs2]
          have hword_len : 2 ≤ word.length := le_trans (le_max_left _ _) hlen.1
          refine ⟨firstFixed, lastFixed, heq1, heq2, hlen.1, hlen.2, by omega, by omega,
            hlf, hla, ?_, ?_⟩
          · intro P pc hP1 hP2 hpat
            have hPlt : P < pattern.length := by
              by_contra hn
              rw [List.getD_eq_default _ _ (by omega)] at hpat
              cases hpat
            have hUpat : Char.toUpper pc = pc := by
              have h0 := hU P hPlt
              rw [hpat] at h0
              simpa using h0
            have hplace := checkPlacement_sound pattern lockedEmpty word s needed hcp
              (P - s) (by omega)
            rw [show s + (P - s) = P by omega] at hplace
            have hfin := hplace.2 pc hpat
            rw [hUpat] at hfin
            exact hfin
          · intro P hP1 hP2
            have hplace := checkPlacement_sound pattern lockedEmpty word s needed hcp
              (P - s) (by omega)
            rw [show s + (P - s) = P by omega] at hplace
            exact hplace.1

theorem findPatternMatches_results_sound_witness :
    ((∀ i, i < ([none, none, some 'A', none, none] : List (Option Char)).length →
        (([none, none, some 'A', none, none] : List (Option Char)).getD i none).map
            Char.toUpper =
          ([none, none, some 'A', none, none] : List (Option Char)).getD i none) ∧
      (⟨['C', 'A', 'T'], 5, 1⟩ : PatResult) ∈
        findPatternMatches ⟨[['C', 'A', 'T']], true⟩
          [none, none, some 'A', none, none] [false, false, false, false, false]
          ['C', 'T', 'B', 'T']) ∧
    (∃ firstFixed lastFixed,
      firstFixedPos [none, none, some 'A', none, none] = some firstFixed ∧
      lastFixedPos [none, none, some 'A', none, none] = some lastFixed ∧
      max 2 (lastFixed - firstFixed + 1) ≤ (⟨['C', 'A', 'T'], 5, 1⟩ : PatResult).word.length ∧
      (⟨['C', 'A', 'T'], 5, 1⟩ : PatResult).word.length ≤
        lastAvailPos [none, none, some 'A', none, none] [false, false, false, false, false] -
          firstAvailPos [none, none, some 'A', none, none] [false, false, false, false, false] + 1 ∧
      firstAvailPos [none, none, some 'A', none, none] [false, false, false, false, false] ≤
        (⟨['C', 'A', 'T'], 5, 1⟩ : PatResult).startPos ∧
      (⟨['C', 'A', 'T'], 5, 1⟩ : PatResult).startPos ≤ firstFixed ∧
      lastFixed ≤ (⟨['C', 'A', 'T'], 5, 1⟩ : PatResult).startPos +
        (⟨['C', 'A', 'T'], 5, 1⟩ : PatResult).word.length - 1 ∧
      (⟨['C', 'A', 'T'], 5, 1⟩ : PatResult).startPos +
          (⟨['C', 'A', 'T'], 5, 1⟩ : PatResult).word.length - 1 ≤
        lastAvailPos [none, none, some 'A', none, none] [false, false, false, false, false] ∧
      (∀ P pc, (⟨['C', 'A', 'T'], 5, 1⟩ : PatResult).startPos ≤ P →
        P ≤ (⟨['C', 'A', 'T'], 5, 1⟩ : PatResult).startPos +
          (⟨['C', 'A', 'T'], 5, 1⟩ : PatResult).word.length - 1 →
        ([none, none, some 'A', none, none] : List (Option Char)).getD P none = some pc →
        (⟨['C', 'A', 'T'], 5, 1⟩ : PatResult).word.getD
          (P - (⟨['C', 'A', 'T'], 5, 1⟩ : PatResult).startPos) ' ' = pc) ∧
      (∀ P, (⟨['C', 'A', 'T'], 5, 1⟩ : PatResult).startPos ≤ P →
        P ≤ (⟨['C', 'A', 'T'], 5, 1⟩ : PatResult).startPos +
          (⟨['C', 'A', 'T'], 5, 1⟩ : PatResult).word.length - 1 →
        ([false, false, false, false, false] : List Bool).getD P false = false)) :=
  ⟨⟨by decide, by decide⟩,
    findPatternMatches_results_sound ⟨[['C', 'A', 'T']], true⟩
      [none, none, some 'A', none, none] [false, false, false, false, false]
      ['C', 'T', 'B', 'T'] ⟨['C', 'A', 'T'], 5, 1⟩ (by decide) (by decide)⟩

theorem replicate_qmark_filter (n : Nat) :
    (List.replicate n '?').filter isNotWildcard = [] := by
  induction n with
  | zero => rfl
  | succ m ih =>
    rw [List.replicate_succ, List.filter_cons]
    have h : isNotWildcard '?' = false := by simp [isNotWildcard]
    rw [h]
    simpa using ih

theorem replicate_qmark_countP (n : Nat) :
    (List.replicate n '?').countP isWildcard = n := by
  induction n with
  | zero => rfl
  | succ m ih =>
    rw [List.replicate_succ, List.countP_cons]
    have h : isWildcard '?' = true := by simp [isWildcard]
    rw [h, ih]
    simp

theorem needWild_nil_avail : ∀ l : List Char, needWild l [] = l.length := by
  intro l
  induction l with
  | nil => rfl
  | cons c cs ih =>
    simp only [needWild, removeFirst]
    rw [ih]
    rfl

theorem canFormFromRack_nil_avail (needed : List Char) (wildcards : Nat) :
    canFormFromRack needed [] wildcards = decide (needed.length ≤ wildcards) := by
  rw [canFormFromRack_eq_needWild, needWild_nil_avail]

theorem checkPlacement_length (pattern : List (Option Char)) (lockedEmpty : List Bool) :
    ∀ (w : List Char) (pos : Nat) (needed : List Char),
      checkPlacement pattern lockedEmpty w pos = some needed →
      needed.length ≤ w.length := by
  intro w
  induction w with
  | nil =>
    intro pos needed h
    simp only [checkPlacement, Option.some.injEq] at h
    subst h
    simp
  | cons c rest ih =>
    intro pos needed h
    simp only [checkPlacement] at h
    split at h
    · cases h
    · cases hpat : pattern.getD pos none with
      | some pc =>
        simp only [hpat] at h
        split at h
        · have := ih (pos + 1) needed h
          simp only [List.length_cons]
          omega
        · cases h
      | none =>
        simp only [hpat] at h
        rcases Option.map_eq_some'.mp h with ⟨needed2, h2, heq⟩
        have := ih (pos + 1) needed2 h2
        subst heq
        simp only [List.length_cons]
        omega

theorem checkMatch_eq_isSome (pattern : List (Option Char)) (lockedEmpty : List Bool) :
    ∀ (w : List Char) (pos : Nat),
      checkMatch pattern lockedEmpty w pos =
        (checkPlacement pattern lockedEmpty w pos).isSome := by
  intro w
  induction w with
  | nil => intro pos; rfl
  | cons c rest ih =>
    intro pos
    simp only [checkMatch, checkPlacement]
    split
    · rfl
    · cases hpat : pattern.getD pos none with
      | some pc =>
        simp only [hpat]
        split
        · exact ih (pos + 1)
        · rfl
      | none =>
        simp only [hpat]
        rw [ih (pos + 1)]
        cases checkPlacement pattern lockedEmpty rest (pos + 1) <;> rfl

theorem findOffset_eq_rand (pattern : List (Option Char)) (lockedEmpty : List Bool)
    (word : List Char) (wilds lf la : Nat) (hlen : word.length ≤ wilds) :
    ∀ offs : List Nat,
      findOffset pattern lockedEmpty word [] wilds lf la offs =
        findOffsetRand pattern lockedEmpty word lf la offs := by
  intro offs
  induction offs with
  | nil => rfl
  | cons t rest ih =>
    simp only [findOffset, findOffsetRand]
    split
    · exact ih
    · rw [checkMatch_eq_isSome]
      cases hcp : checkPlacement pattern lockedEmpty word t with
      | some needed =>
        simp only [hcp]
        have hn : needed.length ≤ wilds :=
          le_trans (checkPlacement_length pattern lockedEmpty word t needed hcp) hlen
        rw [canFormFromRack_nil_avail]
        simp [hn]
      | none =>
        simp only [hcp, Option.isSome_none, Bool.false_eq_true, if_false]
        exact ih

theorem lastAvailPos_lt (pattern : List (Option Char)) (lockedEmpty : List Bool)
    (h : pattern ≠ []) : lastAvailPos pattern lockedEmpty < pattern.length := by
  have hn : 0 < pattern.length := List.length_pos.mpr h
  unfold lastAvailPos
  cases hfind : (List.range pattern.length).reverse.find?
      (fun i => !(lockedEmpty.getD i false)) with
  | none => simpa using hn
  | some i =>
    have hmem := List.mem_of_find?_eq_some hfind
    rw [List.mem_reverse, List.mem_range] at hmem
    simpa using hmem

/-- C4 (amended): `getRandomPatternWord` runs the same anchor search as
`findPatternMatches` but WITHOUT the rack-formability check (it receives no
rack at all), so its candidate set equals the `(word, startPos)` set of
`findPatternMatches` exactly when the rack constrains nothing — stated here
for a rack of `pattern.length` wildcards, which can form any needed letter
set. For constraining racks the two sets can differ (see the
counterexample). -/
theorem randomCandidates_eq_unconstrained (d : Dictionary)
    (pattern : List (Option Char)) (lockedEmpty : List Bool) (w : List Char) (s : Nat) :
    (w, s) ∈ getRandomPatternWordCandidates d pattern lockedEmpty ↔
      ∃ r ∈ findPatternMatches d pattern lockedEmpty
          (List.replicate pattern.length '?'),
        r.word = w ∧ r.startPos = s := by
  unfold getRandomPatternWordCandidates findPatternMatches
  simp only [replicate_qmark_filter, replicate_qmark_countP, List.map_nil]
  by_cases hload : d.loaded = false
  · simp [hload]
  · simp only [if_neg hload]
    cases hff : firstFixedPos pattern with
    | none => simp
    | some firstFixed =>
      cases hlf : lastFixedPos pattern with
      | none => simp
      | some lastFixed =>
        simp only [List.mem_insertionSort]
        have hne : pattern ≠ [] := by
          intro he
          subst he
          simp [firstFixedPos] at hff
        have hla := lastAvailPos_lt pattern lockedEmpty hne
        constructor
        · intro hmem
          rcases List.mem_filterMap.mp hmem with ⟨word, hword, hf1⟩
          split at hf1
          · cases hf1
          · rename_i hlen
            rcases Option.map_eq_some'.mp hf1 with ⟨s2, hrand, heq⟩
            rw [Prod.mk.injEq] at heq
            rcases heq with ⟨heqw, heqs⟩
            subst heqw
            subst heqs
            refine ⟨⟨word, calculateWordPoints word, s2⟩,
              List.mem_filterMap.mpr ⟨word, hword, ?_⟩, rfl, rfl⟩
            rw [if_neg hlen]
            rw [findOffset_eq_rand pattern lockedEmpty word pattern.length lastFixed
              (lastAvailPos pattern lockedEmpty) (by push_neg at hlen; omega)]
            rw [hrand]
            rfl
        · rintro ⟨r, hrmem, heqw, heqs⟩
          rcases List.mem_filterMap.mp hrmem with ⟨word, hword, hf2⟩
          split at hf2
          · cases hf2
          · rename_i hlen
            rcases Option.map_eq_some'.mp hf2 with ⟨s2, hoff, heq⟩
            have hrw : r.word = word := by rw [← heq]
            have hrs : r.startPos = s2 := by rw [← heq]
            rw [hrw] at heqw
            rw [hrs] at heqs
            subst heqw
            subst heqs
            apply List.mem_filterMap.mpr
            refine ⟨word, hword, ?_⟩
            rw [if_neg hlen]
            rw [← findOffset_eq_rand pattern lockedEmpty word pattern.length lastFixed
              (lastAvailPos pattern lockedEmpty) (by push_neg at hlen; omega)]
            rw [hoff]
            rfl

theorem randomCandidates_eq_unconstrained_witness :
    ((['C', 'A', 'T'], 1) ∈
      getRandomPatternWordCandidates ⟨[['C', 'A', 'T']], true⟩
        [none, none, some 'A', none, none] [false, false, false, false, false] ↔
      ∃ r ∈ findPatternMatches ⟨[['C', 'A', 'T']], true⟩
          [none, none, some 'A', none, none] [false, false, false, false, false]
          (List.replicate ([none, none, some 'A', none, none] :
            List (Option Char)).length '?'),
        r.word = ['C', 'A', 'T'] ∧ r.startPos = 1) :=
  randomCandidates_eq_unconstrained ⟨[['C', 'A', 'T']], true⟩
    [none, none, some 'A', none, none] [false, false, false, false, false]
    ['C', 'A', 'T'] 1

/-- C4 (counterexample): with vocabulary `{"CAT"}`, pattern `[_, 'A', _]`,
nothing forbidden, and the empty rack, `findPatternMatches` returns nothing
(the needed letters C and T are not formable from an empty rack), while
`getRandomPatternWord` still enumerates the candidate `("CAT", 0)` — the two
candidate sets differ because the random search never consults the rack. -/
theorem randomCandidates_counterexample :
    findPatternMatches ⟨[['C', 'A', 'T']], true⟩ [none, some 'A', none]
      [false, false, false] [] = [] ∧
    getRandomPatternWordCandidates ⟨[['C', 'A', 'T']], true⟩ [none, some 'A', none]
      [false, false, false] = [(['C', 'A', 'T'], 0)] := by
  refine ⟨by decide, by decide⟩
